import Mathlib

/-!
Jest report viewer: report store service and viewer.

A shallow embedding of `jest-reports-server/server.js` (the report store service)
and of `jest-reports-react/src/App.js` (the viewer), with the properties of the
specification stated over it.

Modelling conventions.

* A JavaScript string is a Lean `String`; the operations used by the source
  (`endsWith`, `slice`, `replace`, `path.extname`) are defined on its character list.
* The storage directory `reportsDir` is the list of its files in the order
  `fs.readdir` enumerates them, each with its content as text.  Only regular files
  are modelled, and the only input/output failure modelled is a directory that
  cannot be enumerated.
* `JSON.parse` is a parameter `parse : String → Option J`; `none` stands for the
  exception it throws on text that is not JSON.
* An exception that leaves a callback without being caught is the outcome
  `ListOutcome.uncaught`: the handler has written no response.
* A request to `POST /api/upload` is the file part it carries under the field
  `report`, if any.  The multipart parser hands over base names, so the properties
  about stored names assume a name without `/`.
* The viewer reads a report content through the fields of `JestResult`, and a list
  fetch that succeeds delivers an array of reports.
-/

namespace JestReports

/-! ## JavaScript and Node library operations used by the source -/

/-- The method `String.prototype.endsWith`: `s.endsWith(t)`. -/
def endsWith (s t : String) : Bool :=
  t.toList.isSuffixOf s.toList

/-- The method `String.prototype.slice` on the character list, for indices computed by the
caller (negative ones do not occur in the source: they are clamped at zero here). -/
def slice (path : List Char) (start stop : Int) : List Char :=
  (path.drop start.toNat).take (stop.toNat - start.toNat)

/-- The local variables of the loop of `path.extname` (Node, POSIX flavour). -/
structure ExtState where
  startDot : Int
  startPart : Int
  stop : Int
  matchedSlash : Bool
  preDotState : Int
  deriving DecidableEq, Repr

/-- The loop `for (let i = path.length - 1; i >= 0; --i)` of `path.extname`: the call
`extnameLoop path n st` runs the iterations `i = n - 1, ..., 0` from the variables `st`.
The variable `end` of Node is called `stop` here. -/
def extnameLoop (path : List Char) : Nat → ExtState → ExtState
  | 0, st => st
  | i + 1, st =>
    let code := path.getD i ' '
    if code = '/' then
      if !st.matchedSlash then
        { st with startPart := (i : Int) + 1 }
      else
        extnameLoop path i st
    else
      let st1 : ExtState :=
        if st.stop = -1 then { st with matchedSlash := false, stop := (i : Int) + 1 } else st
      let st2 : ExtState :=
        if code = '.' then
          if st1.startDot = -1 then { st1 with startDot := (i : Int) }
          else if st1.preDotState ≠ 1 then { st1 with preDotState := 1 }
          else st1
        else if st1.startDot ≠ -1 then { st1 with preDotState := -1 }
        else st1
      extnameLoop path i st2

/-- The function `path.extname` of Node (POSIX flavour), on the character list. -/
def extnameChars (path : List Char) : List Char :=
  let st := extnameLoop path path.length
    { startDot := -1, startPart := 0, stop := -1, matchedSlash := true, preDotState := 0 }
  if st.startDot = -1 ∨ st.stop = -1 ∨ st.preDotState = 0 ∨
      (st.preDotState = 1 ∧ st.startDot = st.stop - 1 ∧ st.startDot = st.startPart + 1) then
    []
  else
    slice path st.startDot st.stop

/-- The function `path.extname` of Node (POSIX flavour). -/
def extname (path : String) : String :=
  String.mk (extnameChars path.toList)

/-! ## Report store service (`jest-reports-server/server.js`) -/

/-- The storage directory `reportsDir`: its files as `(name, content)`, in the order in which
`fs.readdir` enumerates them. -/
abbrev Dir := List (String × String)

/-- The call `fs.readdir(reportsDir, ...)` on a directory that can be enumerated: the names. -/
def readdir (d : Dir) : List String :=
  d.map Prod.fst

/-- The call `fs.readFileSync(path.join(reportsDir, file), 'utf-8')`; `none` stands for the
exception thrown when there is no such file. -/
def readFileSync (d : Dir) (file : String) : Option String :=
  (d.find? (fun e => e.1 = file)).map Prod.snd

/-- Writing a whole file into the directory: an existing file of that name keeps its place
and gets the new content; a new file is enumerated at the position the file system chooses,
`place names name` (clamped to the length of the directory). -/
def writeFile (place : List String → String → Nat) (d : Dir) (name content : String) : Dir :=
  if d.any (fun e => e.1 = name) then
    d.map (fun e => if e.1 = name then (name, content) else e)
  else
    d.insertIdx (min (place (readdir d) name) d.length) (name, content)

/-- The file part of a multipart upload, as multer describes it in `req.file`. -/
structure UploadedFile where
  originalname : String
  bytes : String
  deriving DecidableEq, Repr

/-- A report of the list: `{ fileName, content }`. -/
structure Report (J : Type) where
  fileName : String
  content : J
  deriving DecidableEq, Repr

/-- The JSON body of an answer of `POST /api/upload`. -/
inductive UploadBody where
  | error (error : String)
  | success (message fileName : String)
  deriving DecidableEq, Repr

/-- An HTTP answer of `POST /api/upload`. -/
structure UploadResponse where
  status : Nat
  body : UploadBody
  deriving DecidableEq, Repr

/-- The JSON body of an answer of `GET /api/reports`. -/
inductive ListBody (J : Type) where
  | error (error : String)
  | reports (list : List (Report J))
  deriving DecidableEq, Repr

/-- What a request to `GET /api/reports` ends in: a response written by the handler, or an
exception that leaves the `fs.readdir` callback uncaught (no response is written). -/
inductive ListOutcome (J : Type) where
  | response (status : Nat) (body : ListBody J)
  | uncaught
  deriving DecidableEq, Repr

/-- The middleware `upload.single('report')` with `multer.diskStorage`: `destination` is
`reportsDir`, `filename` is `file.originalname`, and no file filter is configured, so a
file part is written to the storage directory before the route handler runs.  The result
is the directory afterwards and `req.file`. -/
def upload (place : List String → String → Nat) (d : Dir) (part : Option UploadedFile) :
    Dir × Option UploadedFile :=
  match part with
  | none => (d, none)
  | some file => (writeFile place d file.originalname file.bytes, some file)

/-- The route handler of `app.post('/api/upload', ...)`, given `req.file`. -/
def uploadHandler (reqFile : Option UploadedFile) : UploadResponse :=
  match reqFile with
  | none => { status := 400, body := .error "No file uploaded" }
  | some file =>
    let fileExtension := extname file.originalname
    if fileExtension ≠ ".json" then
      { status := 400, body := .error "Only JSON files are allowed" }
    else
      { status := 200, body := .success "File uploaded successfully!" file.originalname }

/-- The route `POST /api/upload`: the middleware, then the handler.  The result is the
response and the storage directory after the request. -/
def postApiUpload (place : List String → String → Nat) (d : Dir) (part : Option UploadedFile) :
    UploadResponse × Dir :=
  let (d1, reqFile) := upload place d part
  (uploadHandler reqFile, d1)

/-- The expression `jsonFiles.map((file) => ({ fileName: file, content: JSON.parse(
fs.readFileSync(...)) }))`; `none` when reading or parsing throws for some file. -/
def readReports {J : Type} (parse : String → Option J) (d : Dir) :
    List String → Option (List (Report J))
  | [] => some []
  | file :: rest =>
    match readFileSync d file with
    | none => none
    | some text =>
      match parse text with
      | none => none
      | some content =>
        match readReports parse d rest with
        | none => none
        | some reports => some ({ fileName := file, content := content } :: reports)

/-- The route `GET /api/reports`.  The storage is `none` when `fs.readdir` reports an error. -/
def getApiReports {J : Type} (parse : String → Option J) (storage : Option Dir) :
    ListOutcome J :=
  match storage with
  | none => .response 500 (.error "Unable to read reports directory")
  | some d =>
    let files := readdir d
    let jsonFiles := files.filter (fun file => endsWith file ".json")
    match readReports parse d jsonFiles with
    | none => .uncaught
    | some reports => .response 200 (.reports reports)

/-- The storage directory after a sequence of upload requests, made one after the other. -/
def uploadAll (place : List String → String → Nat) (d : Dir) (files : List UploadedFile) : Dir :=
  files.foldl (fun dir file => (postApiUpload place dir (some file)).2) d

/-- The last file of a sequence of uploads sent under a given name. -/
def lastUpload (files : List UploadedFile) (name : String) : Option UploadedFile :=
  files.reverse.find? (fun file => file.originalname = name)

/-- A toy stand-in for `JSON.parse`, for concrete evaluation: it accepts the texts `[]`
and `1` only. -/
def sampleParse (text : String) : Option Nat :=
  if text = "[]" then some 0 else if text = "1" then some 1 else none

/-- A file system that enumerates a new file first. -/
def placeFirst (_names : List String) (_name : String) : Nat :=
  0

/-! ## Report viewer (`jest-reports-react/src/App.js`) -/

/-- One test of a test file, as far as the viewer reads it. -/
structure TestResult where
  fullName : String
  status : String
  failureMessages : List String
  deriving DecidableEq, Repr

/-- One test file of a Jest result. -/
structure TestFile where
  testResults : List TestResult
  deriving DecidableEq, Repr

/-- The content of a report, as far as the viewer reads it. -/
structure JestResult where
  numTotalTests : Int
  numPassedTests : Int
  numFailedTests : Int
  numPendingTests : Int
  testResults : List TestFile
  deriving DecidableEq, Repr

/-- The state of the component `App`: its five `useState` cells.  For the two upload
messages `none` stands for the value `undefined`. -/
structure AppState where
  reports : List (Report JestResult)
  currentReport : Option (Report JestResult)
  selectedReportName : String
  uploadError : Option String
  uploadSuccess : Option String
  deriving DecidableEq, Repr

/-- The initial state of `App`. -/
def initialAppState : AppState :=
  { reports := [], currentReport := none, selectedReportName := "",
    uploadError := some "", uploadSuccess := some "" }

/-- Truthiness of a string-or-undefined value. -/
def truthy (v : Option String) : Bool :=
  match v with
  | none => false
  | some s => s ≠ ""

/-- The search of `filename.replace(/\.json$/, '')` on the character list: the pattern is
tried at each index from the left; `\.json` followed by the end assertion matches at an
index exactly when the rest of the input is `.json`, and the match is replaced by the
empty string. -/
def removeExtensionChars : List Char → List Char
  | [] => []
  | c :: cs =>
    if c :: cs = ['.', 'j', 's', 'o', 'n'] then [] else c :: removeExtensionChars cs

/-- The function `removeExtension`. -/
def removeExtension (filename : String) : String :=
  String.mk (removeExtensionChars filename.toList)

/-- The function `handleReportClick`. -/
def handleReportClick (s : AppState) (report : Report JestResult) : AppState :=
  { s with currentReport := some report,
           selectedReportName := removeExtension report.fileName }

/-- The `onClick` of the button `clear-btn`: `setCurrentReport(null)`. -/
def clearSelectedReport (s : AppState) : AppState :=
  { s with currentReport := none }

/-- The success continuation of `fetchReports`: `setReports(data)`. -/
def fetchReportsThen (s : AppState) (data : List (Report JestResult)) : AppState :=
  { s with reports := data }

/-- The failure continuation of `fetchReports`: the error is logged only. -/
def fetchReportsCatch (s : AppState) : AppState :=
  s

/-- The parsed body of an upload answer, as far as `handleFileUpload` reads it; `none`
stands for an absent property. -/
structure UploadData where
  error : Option String
  message : Option String
  deriving DecidableEq, Repr

/-- The result of `response.json()` for an answer of the service. -/
def UploadBody.toData : UploadBody → UploadData
  | .error e => { error := some e, message := none }
  | .success m _ => { error := none, message := some m }

/-- The continuation `.then((data) => ...)` of `handleFileUpload`. -/
def handleFileUploadThen (s : AppState) (data : UploadData) : AppState :=
  if truthy data.error then
    { s with uploadError := data.error, uploadSuccess := some "" }
  else
    { s with uploadSuccess := data.message, uploadError := some "" }

/-- The continuation `.catch((error) => ...)` of `handleFileUpload`. -/
def handleFileUploadCatch (s : AppState) : AppState :=
  { s with uploadError := some "Failed to upload the file", uploadSuccess := some "" }

/-- What can happen to the viewer. -/
inductive Event where
  | reportClick (report : Report JestResult)
  | clearClick
  | reportsFetched (data : List (Report JestResult))
  | reportsFetchFailed
  | uploadAnswered (part : Option UploadedFile)
  | uploadFailed
  deriving DecidableEq, Repr

/-- Whether an event completes an upload attempt. -/
def Event.isUploadCompletion : Event → Bool
  | .uploadAnswered _ => true
  | .uploadFailed => true
  | _ => false

/-- One step of the viewer.  An upload answered by the service continues with the body of
the response that the route handler gives to the request. -/
def step (s : AppState) : Event → AppState
  | .reportClick report => handleReportClick s report
  | .clearClick => clearSelectedReport s
  | .reportsFetched data => fetchReportsThen s data
  | .reportsFetchFailed => fetchReportsCatch s
  | .uploadAnswered part => handleFileUploadThen s (uploadHandler part).body.toData
  | .uploadFailed => handleFileUploadCatch s

/-- The state after a sequence of events. -/
def run (s : AppState) (events : List Event) : AppState :=
  events.foldl step s

/-- One dataset of the chart payload. -/
structure Dataset where
  label : String
  data : List Int
  backgroundColor : List String
  borderColor : List String
  borderWidth : Nat
  deriving DecidableEq, Repr

/-- The payload given to the component `Bar`. -/
structure ChartData where
  labels : List String
  datasets : List Dataset
  deriving DecidableEq, Repr

/-- The function `createChartData`. -/
def createChartData (report : Report JestResult) : ChartData :=
  let passed := report.content.numPassedTests
  let failed := report.content.numFailedTests
  let pending := report.content.numPendingTests
  { labels := ["Passed", "Failed", "Pending"],
    datasets := [
      { label := "Test Results",
        data := [passed, failed, pending],
        backgroundColor := ["#4CAF50", "#FF5252", "#FFEB3B"],
        borderColor := ["#4CAF50", "#FF5252", "#FFEB3B"],
        borderWidth := 1 } ] }

/-- A rendered entry of the test-detail list: the `li` with its key and class, the name,
the status, and the block `failure-messages` when it is rendered, with one keyed item per
message. -/
structure TestItemView where
  key : Nat
  className : String
  fullName : String
  status : String
  failureBlock : Option (List (Nat × String))
  deriving DecidableEq, Repr

/-- The `li` rendered for one test at one index of the flattened list. -/
def renderTest (index : Nat) (test : TestResult) : TestItemView :=
  { key := index,
    className := if test.status = "passed" then "passed" else "failed",
    fullName := test.fullName,
    status := test.status,
    failureBlock :=
      if test.failureMessages.length > 0 then some test.failureMessages.enum else none }

/-- The list rendered in `test-details`:
`testResults.flatMap((testFile) => testFile.testResults).map((test, index) => ...)`. -/
def renderTestDetails (report : Report JestResult) : List TestItemView :=
  ((report.content.testResults.flatMap (fun testFile => testFile.testResults)).enum).map
    (fun p => renderTest p.1 p.2)

/-- The panel `main-content` when a report is current. -/
structure DetailsView where
  totalTests : Int
  passed : Int
  failed : Int
  pending : Int
  chart : ChartData
  tests : List TestItemView
  deriving DecidableEq, Repr

/-- The panel `main-content`. -/
inductive MainContent where
  | details (view : DetailsView)
  | placeholder (text : String)
  deriving DecidableEq, Repr

/-- What `App` renders. -/
structure View where
  heading : String
  sidebar : List (Nat × String)
  main : MainContent
  errorMessage : Option String
  successMessage : Option String
  deriving DecidableEq, Repr

/-- The `return (...)` of `App`. -/
def render (s : AppState) : View :=
  { heading :=
      if s.selectedReportName ≠ "" then "Selected Report: " ++ s.selectedReportName
      else "Select a Report to View",
    sidebar := s.reports.enum.map (fun p => (p.1, removeExtension p.2.fileName)),
    main :=
      match s.currentReport with
      | some report =>
        .details
          { totalTests := report.content.numTotalTests,
            passed := report.content.numPassedTests,
            failed := report.content.numFailedTests,
            pending := report.content.numPendingTests,
            chart := createChartData report,
            tests := renderTestDetails report }
      | none => .placeholder "Select a report from the left to see the details",
    errorMessage := if truthy s.uploadError then s.uploadError else none,
    successMessage := if truthy s.uploadSuccess then s.uploadSuccess else none }

/-- A report with three passed, one failed and one pending test in two test files. -/
def sampleReport : Report JestResult :=
  { fileName := "run1.json",
    content :=
      { numTotalTests := 5, numPassedTests := 3, numFailedTests := 1, numPendingTests := 1,
        testResults := [
          { testResults := [
              { fullName := "a adds", status := "passed", failureMessages := [] },
              { fullName := "a subtracts", status := "failed",
                failureMessages := ["expected 1", "received 2"] },
              { fullName := "a skips", status := "pending", failureMessages := [] } ] },
          { testResults := [
              { fullName := "b reads", status := "passed", failureMessages := [] },
              { fullName := "b writes", status := "passed", failureMessages := [] } ] } ] } }

/-- The index in the flattened test list at which the tests of the test file `i` start:
the number of tests of the files before it. -/
def fileOffset (report : Report JestResult) (i : Nat) : Nat :=
  ((report.content.testResults.take i).map (fun testFile => testFile.testResults.length)).sum

/-- Whether the paragraph `error` of the upload section is rendered. -/
def errorShown (s : AppState) : Bool :=
  (render s).errorMessage.isSome

/-- Whether the paragraph `success` of the upload section is rendered. -/
def successShown (s : AppState) : Bool :=
  (render s).successMessage.isSome

/-- Three valid uploads, the first and the last under the same name. -/
def sampleUploads : List UploadedFile :=
  [{ originalname := "a.json", bytes := "[]" }, { originalname := "b.json", bytes := "1" },
    { originalname := "a.json", bytes := "1" }]

/-- A storage directory with two reports and two files that are not listed. -/
def sampleDir : Dir :=
  [("b.json", "1"), ("notes.txt", "hello"), ("a.JSON", "oops"), ("a.json", "[]")]

/-- A storage directory in which one report is not JSON. -/
def brokenDir : Dir :=
  [("good.json", "[]"), ("bad.json", "oops")]

/-! ## Properties -/

/-! ### Strings -/

theorem endsWith_iff_suffix (s t : String) : endsWith s t = true ↔ t.data <:+ s.data := by
  simp [endsWith, String.toList]

theorem removeExtensionChars_append (p : List Char) :
    removeExtensionChars (p ++ ['.', 'j', 's', 'o', 'n']) = p := by
  induction p with
  | nil => simp [removeExtensionChars]
  | cons c p ih =>
    have hne : c :: (p ++ ['.', 'j', 's', 'o', 'n']) ≠ ['.', 'j', 's', 'o', 'n'] := by
      intro h
      have hl := congrArg List.length h
      simp at hl
    show removeExtensionChars (c :: (p ++ ['.', 'j', 's', 'o', 'n'])) = c :: p
    rw [removeExtensionChars, if_neg hne, ih]

theorem removeExtensionChars_of_not_suffix (l : List Char)
    (h : ¬ ['.', 'j', 's', 'o', 'n'] <:+ l) : removeExtensionChars l = l := by
  induction l with
  | nil => simp [removeExtensionChars]
  | cons c cs ih =>
    have hne : c :: cs ≠ ['.', 'j', 's', 'o', 'n'] := by
      intro heq
      exact h (heq ▸ List.suffix_refl _)
    have hcs : ¬ ['.', 'j', 's', 'o', 'n'] <:+ cs := fun hs => h (hs.trans (List.suffix_cons c cs))
    simp only [removeExtensionChars, if_neg hne, ih hcs]

/-! ### The upload route: answers -/

/-- Claim C3: `POST /api/upload` answers 200 with the message and the original name of the
file exactly when a file is present and `path.extname` of its original name is `.json`;
in every other case it answers 400 with an error body (no file, no extension, `.JSON`, a
name that is only `.json`, `x.txt`). -/
theorem uploadHandler_answer (part : Option UploadedFile) :
    ((uploadHandler part).status = 200 ↔
        ∃ file, part = some file ∧ extname file.originalname = ".json") ∧
    ((uploadHandler part).status = 200 ∨ (uploadHandler part).status = 400) ∧
    (∀ file, part = some file → extname file.originalname = ".json" →
        uploadHandler part =
          { status := 200, body := .success "File uploaded successfully!" file.originalname }) ∧
    ((uploadHandler part).status = 400 ↔ ∃ e, (uploadHandler part).body = .error e) ∧
    uploadHandler none = { status := 400, body := .error "No file uploaded" } ∧
    (∀ bytes, (uploadHandler (some { originalname := "report", bytes := bytes })).status = 400) ∧
    (∀ bytes, (uploadHandler (some { originalname := "a.JSON", bytes := bytes })).status = 400) ∧
    (∀ bytes, (uploadHandler (some { originalname := ".json", bytes := bytes })).status = 400) ∧
    (∀ bytes, (uploadHandler (some { originalname := "x.txt", bytes := bytes })).status = 400) ∧
    (∀ bytes, uploadHandler (some { originalname := "run1.json", bytes := bytes }) =
        { status := 200, body := .success "File uploaded successfully!" "run1.json" }) := by
  refine ⟨?_, ?_, ?_, ?_, rfl, ?_, ?_, ?_, ?_, ?_⟩
  · cases part with
    | none => simp [uploadHandler]
    | some file =>
      by_cases h : extname file.originalname = ".json" <;> simp [uploadHandler, h]
  · cases part with
    | none => simp [uploadHandler]
    | some file =>
      by_cases h : extname file.originalname = ".json" <;> simp [uploadHandler, h]
  · intro file hp h
    subst hp
    simp [uploadHandler, h]
  · cases part with
    | none => simp [uploadHandler]
    | some file =>
      by_cases h : extname file.originalname = ".json" <;> simp [uploadHandler, h]
  · intro bytes
    have h : extname "report" ≠ ".json" := by decide
    simp [uploadHandler, h]
  · intro bytes
    have h : extname "a.JSON" ≠ ".json" := by decide
    simp [uploadHandler, h]
  · intro bytes
    have h : extname ".json" ≠ ".json" := by decide
    simp [uploadHandler, h]
  · intro bytes
    have h : extname "x.txt" ≠ ".json" := by decide
    simp [uploadHandler, h]
  · intro bytes
    have h : extname "run1.json" = ".json" := by decide
    simp [uploadHandler, h]

/-- A concrete instance: the upload of a file named `run1.json` is answered 200. -/
theorem uploadHandler_answer_witness :
    uploadHandler (some { originalname := "run1.json", bytes := "[]" }) =
      { status := 200, body := .success "File uploaded successfully!" "run1.json" } :=
  (uploadHandler_answer (some { originalname := "run1.json", bytes := "[]" })).2.2.1
    { originalname := "run1.json", bytes := "[]" } rfl (by decide)

/-! ### The viewer: selecting a report -/

/-- Claim C6: `handleReportClick` sets the report as current and the display name to
`removeExtension(fileName)`; `removeExtension` strips exactly one trailing `.json` (so
`removeExtension(s) + '.json' = s` when `s` ends in `.json`, and `run1.json` gives `run1`)
and returns every other string unchanged. -/
theorem handleReportClick_removeExtension (s : AppState) (report : Report JestResult) :
    (handleReportClick s report).currentReport = some report ∧
    (handleReportClick s report).selectedReportName = removeExtension report.fileName ∧
    (∀ name : String, endsWith name ".json" = true → removeExtension name ++ ".json" = name) ∧
    (∀ name : String, endsWith name ".json" = false → removeExtension name = name) ∧
    removeExtension "run1.json" = "run1" := by
  refine ⟨rfl, rfl, ?_, ?_, by decide⟩
  · intro name h
    rw [endsWith_iff_suffix] at h
    obtain ⟨p, hp⟩ := h
    apply String.ext
    have hj : (".json" : String).data = ['.', 'j', 's', 'o', 'n'] := rfl
    rw [hj] at hp
    simp only [String.data_append, removeExtension, String.toList, hj]
    rw [← hp, removeExtensionChars_append]
  · intro name h
    have hns : ¬ ['.', 'j', 's', 'o', 'n'] <:+ name.data := by
      intro hs
      have : endsWith name ".json" = true := (endsWith_iff_suffix _ _).2 hs
      rw [h] at this
      exact Bool.noConfusion this
    apply String.ext
    simp only [removeExtension, String.toList]
    exact removeExtensionChars_of_not_suffix _ hns

/-- A concrete instance: the name `run1.json` is its display name followed by `.json`. -/
theorem handleReportClick_removeExtension_witness :
    removeExtension "run1.json" ++ ".json" = "run1.json" :=
  (handleReportClick_removeExtension initialAppState sampleReport).2.2.1 "run1.json" (by decide)

/-! ### The viewer: chart payload -/

/-- Claim C9: `createChartData` returns the labels Passed, Failed, Pending and one dataset
whose data is the passed, failed and pending counts of the content in that order, with the
colours green, red, yellow in that order, whatever `numTotalTests` and `testResults` are;
the counts 3/1/1 give the data `[3, 1, 1]`. -/
theorem createChartData_payload (report : Report JestResult) :
    (createChartData report).labels = ["Passed", "Failed", "Pending"] ∧
    (∃ ds, (createChartData report).datasets = [ds] ∧
      ds.data = [report.content.numPassedTests, report.content.numFailedTests,
        report.content.numPendingTests] ∧
      ds.backgroundColor = ["#4CAF50", "#FF5252", "#FFEB3B"] ∧
      ds.borderColor = ["#4CAF50", "#FF5252", "#FFEB3B"]) ∧
    (∀ (total : Int) (tests : List TestFile),
      createChartData
          { report with content :=
              { report.content with numTotalTests := total, testResults := tests } } =
        createChartData report) ∧
    (createChartData sampleReport).datasets.map Dataset.data = [[3, 1, 1]] := by
  refine ⟨rfl, ⟨_, rfl, rfl, rfl, rfl⟩, fun _ _ => rfl, by decide⟩

/-! ### The viewer: test details -/

theorem getElem?_flatten_offset {α : Type} (L : List (List α)) (i j : Nat) (l : List α) (x : α)
    (hi : L[i]? = some l) (hj : l[j]? = some x) :
    L.flatten[((L.take i).map List.length).sum + j]? = some x := by
  induction L generalizing i with
  | nil => simp at hi
  | cons h t ih =>
    cases i with
    | zero =>
      simp only [List.getElem?_cons_zero, Option.some.injEq] at hi
      subst hi
      have hlt : j < h.length := by
        by_contra hge
        rw [List.getElem?_eq_none (Nat.le_of_not_lt hge)] at hj
        exact Option.noConfusion hj
      simp only [List.take_zero, List.map_nil, List.sum_nil, Nat.zero_add, List.flatten_cons]
      rw [List.getElem?_append_left hlt]
      exact hj
    | succ i =>
      simp only [List.getElem?_cons_succ] at hi
      simp only [List.take_succ_cons, List.map_cons, List.sum_cons, List.flatten_cons]
      rw [List.getElem?_append_right (by omega)]
      have hk : h.length + ((t.take i).map List.length).sum + j - h.length =
          ((t.take i).map List.length).sum + j := by omega
      rw [hk]
      exact ih i hi

/-- Claim C10: the rendered test-detail list is the concatenation, in file order, of the
`testResults` of each test file: its length is the sum of the lengths of the nested lists,
the test `j` of the file `i` is rendered at the position `fileOffset i + j`, and an entry
has a failure-message block exactly when its `failureMessages` is non-empty, with one item
per message in order. -/
theorem renderTestDetails_flatten (report : Report JestResult) :
    (renderTestDetails report).length =
      (report.content.testResults.map (fun testFile => testFile.testResults.length)).sum ∧
    (∀ (i j : Nat) (testFile : TestFile) (test : TestResult),
      report.content.testResults[i]? = some testFile → testFile.testResults[j]? = some test →
      (renderTestDetails report)[fileOffset report i + j]? =
        some (renderTest (fileOffset report i + j) test)) ∧
    (∀ (index : Nat) (test : TestResult),
      ((renderTest index test).failureBlock.isSome = true ↔ test.failureMessages ≠ []) ∧
      (∀ items, (renderTest index test).failureBlock = some items →
        items.map Prod.snd = test.failureMessages)) ∧
    (renderTestDetails sampleReport).length = 5 := by
  refine ⟨?_, ?_, ?_, by decide⟩
  · simp [renderTestDetails, List.flatMap, Function.comp_def]
  · intro i j testFile test hi hj
    have hmap : (report.content.testResults.map (fun testFile => testFile.testResults))[i]? =
        some testFile.testResults := by
      rw [List.getElem?_map, hi]
      rfl
    have hflat := getElem?_flatten_offset _ i j _ test hmap hj
    have hoff : (((report.content.testResults.map (fun testFile => testFile.testResults)).take
        i).map List.length).sum = fileOffset report i := by
      simp [fileOffset, List.map_take, Function.comp_def]
    rw [hoff] at hflat
    simp only [renderTestDetails, List.flatMap, List.getElem?_map, List.getElem?_enum, hflat]
    rfl
  · intro index test
    constructor
    · cases hm : test.failureMessages with
      | nil => simp [renderTest, hm]
      | cons m ms => simp [renderTest, hm]
    · intro items hitems
      cases hm : test.failureMessages with
      | nil => simp [renderTest, hm] at hitems
      | cons m ms =>
        simp only [renderTest, hm, List.length_cons, gt_iff_lt, Nat.zero_lt_succ, if_true,
          Option.some.injEq] at hitems
        rw [← hitems, List.enum_map_snd]

/-- A concrete instance: the second test of the first file of the sample report is rendered
at its position. -/
theorem renderTestDetails_flatten_witness :
    (renderTestDetails sampleReport)[fileOffset sampleReport 0 + 1]? =
      some (renderTest (fileOffset sampleReport 0 + 1)
        { fullName := "a subtracts", status := "failed",
          failureMessages := ["expected 1", "received 2"] }) :=
  (renderTestDetails_flatten sampleReport).2.1 0 1 _ _ rfl rfl

/-! ### The viewer: clearing the selection -/

/-- Claim C7: after a report was selected, the clear action sets the current report to
none and the main panel shows the placeholder, with the report list and the upload
messages unchanged; the display name is kept, so after selecting `run1.json` and clearing
the heading still reads `Selected Report: run1` and the view differs from the one shown
before any report was selected. -/
theorem clearSelectedReport_keeps_heading :
    (∀ (s : AppState) (report : Report JestResult),
      (clearSelectedReport (handleReportClick s report)).currentReport = none ∧
      (render (clearSelectedReport (handleReportClick s report))).main =
        .placeholder "Select a report from the left to see the details" ∧
      (clearSelectedReport (handleReportClick s report)).reports = s.reports ∧
      (clearSelectedReport (handleReportClick s report)).uploadError = s.uploadError ∧
      (clearSelectedReport (handleReportClick s report)).uploadSuccess = s.uploadSuccess ∧
      (clearSelectedReport (handleReportClick s report)).selectedReportName =
        removeExtension report.fileName) ∧
    (render initialAppState).heading = "Select a Report to View" ∧
    (render (clearSelectedReport (handleReportClick initialAppState sampleReport))).heading =
      "Selected Report: run1" ∧
    render (clearSelectedReport (handleReportClick initialAppState sampleReport)) ≠
      render initialAppState := by
  refine ⟨fun s report => ⟨rfl, rfl, rfl, rfl, rfl, rfl⟩, by decide, by decide, by decide⟩

/-! ### The viewer: upload messages -/

theorem errorShown_eq (s : AppState) : errorShown s = truthy s.uploadError := by
  unfold errorShown render
  cases h : s.uploadError with
  | none => simp [truthy]
  | some e => by_cases he : e = "" <;> simp [truthy, he]

theorem successShown_eq (s : AppState) : successShown s = truthy s.uploadSuccess := by
  unfold successShown render
  cases h : s.uploadSuccess with
  | none => simp [truthy]
  | some e => by_cases he : e = "" <;> simp [truthy, he]

theorem step_upload_completion (s : AppState) (e : Event) (h : e.isUploadCompletion = true) :
    truthy (step s e).uploadError ≠ truthy (step s e).uploadSuccess := by
  cases e with
  | reportClick report => simp [Event.isUploadCompletion] at h
  | clearClick => simp [Event.isUploadCompletion] at h
  | reportsFetched data => simp [Event.isUploadCompletion] at h
  | reportsFetchFailed => simp [Event.isUploadCompletion] at h
  | uploadFailed => simp [step, handleFileUploadCatch, truthy]
  | uploadAnswered part =>
    cases part with
    | none => simp [step, uploadHandler, UploadBody.toData, handleFileUploadThen, truthy]
    | some file =>
      by_cases hx : extname file.originalname = ".json" <;>
        simp [step, uploadHandler, UploadBody.toData, handleFileUploadThen, truthy, hx]

theorem step_frame (s : AppState) (e : Event) (h : e.isUploadCompletion = false) :
    (step s e).uploadError = s.uploadError ∧ (step s e).uploadSuccess = s.uploadSuccess := by
  cases e with
  | reportClick report => exact ⟨rfl, rfl⟩
  | clearClick => exact ⟨rfl, rfl⟩
  | reportsFetched data => exact ⟨rfl, rfl⟩
  | reportsFetchFailed => exact ⟨rfl, rfl⟩
  | uploadFailed => simp [Event.isUploadCompletion] at h
  | uploadAnswered part => simp [Event.isUploadCompletion] at h

theorem run_snoc (s : AppState) (events : List Event) (e : Event) :
    run s (events ++ [e]) = step (run s events) e := by
  simp [run, List.foldl_append]

theorem run_messages (events : List Event) :
    ¬ (truthy (run initialAppState events).uploadError = true ∧
        truthy (run initialAppState events).uploadSuccess = true) ∧
    ((∃ e ∈ events, e.isUploadCompletion = true) →
      truthy (run initialAppState events).uploadError ≠
        truthy (run initialAppState events).uploadSuccess) := by
  induction events using List.reverseRecOn with
  | nil =>
    constructor
    · simp [run, initialAppState, truthy]
    · rintro ⟨e, he, -⟩
      simp at he
  | append_singleton events e ih =>
    rw [run_snoc]
    cases hc : e.isUploadCompletion with
    | true =>
      have hx := step_upload_completion (run initialAppState events) e hc
      refine ⟨?_, fun _ => hx⟩
      rintro ⟨h1, h2⟩
      exact hx (h1.trans h2.symm)
    | false =>
      obtain ⟨h1, h2⟩ := step_frame (run initialAppState events) e hc
      rw [h1, h2]
      refine ⟨ih.1, ?_⟩
      rintro ⟨e', he', hc'⟩
      rcases List.mem_append.1 he' with hm | hm
      · exact ih.2 ⟨e', hm, hc'⟩
      · simp only [List.mem_singleton] at hm
        subst hm
        rw [hc] at hc'
        exact Bool.noConfusion hc'

/-- Claim C8: in every state reached from the initial one by select, clear, list-fetch and
upload-completion steps, the success and the error message are never both shown; once an
upload attempt has completed exactly one of them is shown; and select, clear and
list-fetch steps leave both messages unchanged. -/
theorem upload_messages_exclusive (events : List Event) :
    ¬ (errorShown (run initialAppState events) = true ∧
        successShown (run initialAppState events) = true) ∧
    ((∃ e ∈ events, e.isUploadCompletion = true) →
      errorShown (run initialAppState events) ≠ successShown (run initialAppState events)) ∧
    (∀ (s : AppState) (e : Event), e.isUploadCompletion = true →
      errorShown (step s e) ≠ successShown (step s e)) ∧
    (∀ (s : AppState) (e : Event), e.isUploadCompletion = false →
      (step s e).uploadError = s.uploadError ∧ (step s e).uploadSuccess = s.uploadSuccess ∧
      (render (step s e)).errorMessage = (render s).errorMessage ∧
      (render (step s e)).successMessage = (render s).successMessage) := by
  simp only [errorShown_eq, successShown_eq]
  refine ⟨(run_messages events).1, (run_messages events).2, step_upload_completion, ?_⟩
  intro s e h
  obtain ⟨h1, h2⟩ := step_frame s e h
  refine ⟨h1, h2, ?_, ?_⟩
  · simp only [render, h1]
  · simp only [render, h2]

/-- A concrete instance: a rejected upload, a selection, a clear and a list fetch leave
exactly one message shown. -/
theorem upload_messages_exclusive_witness :
    errorShown (run initialAppState
        [.uploadAnswered (some { originalname := "x.txt", bytes := "hello" }),
          .reportClick sampleReport, .clearClick, .reportsFetched [sampleReport]]) ≠
      successShown (run initialAppState
        [.uploadAnswered (some { originalname := "x.txt", bytes := "hello" }),
          .reportClick sampleReport, .clearClick, .reportsFetched [sampleReport]]) :=
  (upload_messages_exclusive
    [.uploadAnswered (some { originalname := "x.txt", bytes := "hello" }),
      .reportClick sampleReport, .clearClick, .reportsFetched [sampleReport]]).2.1
    ⟨_, List.mem_cons_self _ _, rfl⟩


theorem extnameLoop_stop (path : List Char) (hs : ∀ c ∈ path, c ≠ '/') :
    ∀ (n : Nat) (st : ExtState), n ≤ path.length →
      ((st.stop = -1 ∧ n = path.length) ∨ st.stop = path.length) →
      (extnameLoop path n st).stop = -1 ∨ (extnameLoop path n st).stop = path.length := by
  intro n
  induction n with
  | zero =>
    intro st _ h
    rcases h with ⟨h, _⟩ | h
    · exact Or.inl h
    · exact Or.inr h
  | succ i ih =>
    intro st hn h
    have hlt : i < path.length := hn
    have hc : path.getD i ' ' ≠ '/' := by
      rw [List.getD_eq_getElem _ _ hlt]
      exact hs _ (List.getElem_mem _)
    rw [extnameLoop]
    simp only [hc, if_false]
    apply ih _ (Nat.le_of_lt hlt)
    right
    rcases h with ⟨h, hn'⟩ | h
    · split_ifs <;> (show ((i : Int) + 1 = path.length); omega)
    · split_ifs <;> first
        | exact h
        | omega

theorem extnameChars_suffix (path : List Char) (hs : ∀ c ∈ path, c ≠ '/') :
    extnameChars path <:+ path := by
  have hstop := extnameLoop_stop path hs path.length
    { startDot := -1, startPart := 0, stop := -1, matchedSlash := true, preDotState := 0 }
    (Nat.le_refl _) (Or.inl ⟨rfl, rfl⟩)
  unfold extnameChars
  simp only
  split_ifs with hcond
  · exact List.nil_suffix
  · have hne : (extnameLoop path path.length
        { startDot := -1, startPart := 0, stop := -1, matchedSlash := true,
          preDotState := 0 }).stop ≠ -1 := fun hneg => hcond (Or.inr (Or.inl hneg))
    rw [hstop.resolve_left hne]
    unfold slice
    rw [List.take_of_length_le]
    · exact List.drop_suffix _ _
    · simp

theorem extname_json_endsWith (name : String) (hs : ∀ c ∈ name.data, c ≠ '/')
    (h : extname name = ".json") : endsWith name ".json" = true := by
  rw [endsWith_iff_suffix]
  have hj : (".json" : String).data = ['.', 'j', 's', 'o', 'n'] := rfl
  have hc : extnameChars name.data = ['.', 'j', 's', 'o', 'n'] := by
    have := congrArg String.data h
    simpa [extname, String.toList, hj] using this
  rw [hj, ← hc]
  exact extnameChars_suffix _ hs

/-! ### The storage directory -/

theorem readFileSync_mem (d : Dir) (file text : String) (h : readFileSync d file = some text) :
    (file, text) ∈ d := by
  unfold readFileSync at h
  rw [Option.map_eq_some'] at h
  obtain ⟨e, he, ht⟩ := h
  have h1 := List.find?_some he
  have h2 := List.mem_of_find?_eq_some he
  simp only [decide_eq_true_eq] at h1
  rw [← h1, ← ht]
  exact h2

theorem readFileSync_of_mem_readdir (d : Dir) (file : String) (h : file ∈ readdir d) :
    ∃ text, readFileSync d file = some text := by
  unfold readdir at h
  rw [List.mem_map] at h
  obtain ⟨e, he, hf⟩ := h
  have hsome : (d.find? (fun e => e.1 = file)).isSome = true := by
    rw [List.find?_isSome]
    exact ⟨e, he, by simp [hf]⟩
  obtain ⟨x, hx⟩ := Option.isSome_iff_exists.1 hsome
  exact ⟨x.2, by simp [readFileSync, hx]⟩

theorem readFileSync_of_mem_nodup (d : Dir) (file text : String) (hnd : (readdir d).Nodup)
    (h : (file, text) ∈ d) : readFileSync d file = some text := by
  induction d with
  | nil => simp at h
  | cons e rest ih =>
    simp only [readdir, List.map_cons, List.nodup_cons] at hnd
    rcases List.mem_cons.1 h with heq | hrest
    · subst heq
      simp [readFileSync]
    · have hne : e.1 ≠ file := by
        intro hef
        apply hnd.1
        rw [hef]
        exact List.mem_map.2 ⟨(file, text), hrest, rfl⟩
      have := ih hnd.2 hrest
      simp only [readFileSync] at this ⊢
      rw [List.find?_cons_of_neg _ (by simpa using hne)]
      exact this

theorem mem_writeFile (place : List String → String → Nat) (d : Dir) (name content n t : String) :
    (n, t) ∈ writeFile place d name content ↔
      (n = name ∧ t = content) ∨ (n ≠ name ∧ (n, t) ∈ d) := by
  unfold writeFile
  split_ifs with hany
  · rw [List.any_eq_true] at hany
    obtain ⟨e0, he0, hn0⟩ := hany
    simp only [decide_eq_true_eq] at hn0
    rw [List.mem_map]
    constructor
    · rintro ⟨e, he, hfe⟩
      by_cases hen : e.1 = name
      · rw [if_pos hen] at hfe
        left
        simpa [eq_comm] using hfe
      · rw [if_neg hen] at hfe
        right
        subst hfe
        exact ⟨hen, he⟩
    · rintro (⟨h1, h2⟩ | ⟨h1, h2⟩)
      · exact ⟨e0, he0, by simp [hn0, h1, h2]⟩
      · exact ⟨(n, t), h2, by simp [h1]⟩
  · have hall : ∀ e ∈ d, e.1 ≠ name := by
      intro e he hen
      apply hany
      rw [List.any_eq_true]
      exact ⟨e, he, by simp [hen]⟩
    rw [List.mem_insertIdx (Nat.min_le_right _ _)]
    constructor
    · rintro (h | h)
      · left
        simpa using h
      · right
        exact ⟨hall _ h, h⟩
    · rintro (⟨h1, h2⟩ | ⟨_, h2⟩)
      · left
        rw [h1, h2]
      · right
        exact h2

theorem nodup_readdir_writeFile (place : List String → String → Nat) (d : Dir)
    (name content : String) (hnd : (readdir d).Nodup) :
    (readdir (writeFile place d name content)).Nodup := by
  unfold writeFile
  split_ifs with hany
  · have hsame : readdir (d.map (fun e => if e.1 = name then (name, content) else e)) =
        readdir d := by
      unfold readdir
      rw [List.map_map]
      apply List.map_congr_left
      intro e _
      by_cases hen : e.1 = name <;> simp [hen]
    rw [hsame]
    exact hnd
  · have hnot : name ∉ readdir d := by
      intro hmem
      apply hany
      obtain ⟨e, he, hen⟩ := List.mem_map.1 hmem
      rw [List.any_eq_true]
      exact ⟨e, he, by simp [hen]⟩
    have hperm := (List.perm_insertIdx (name, content) d (Nat.min_le_right
      (place (readdir d) name) d.length)).map Prod.fst
    exact hperm.nodup_iff.2 (List.nodup_cons.2 ⟨hnot, hnd⟩)

theorem uploadAll_snoc (place : List String → String → Nat) (d : Dir)
    (files : List UploadedFile) (file : UploadedFile) :
    uploadAll place d (files ++ [file]) =
      writeFile place (uploadAll place d files) file.originalname file.bytes := by
  simp [uploadAll, List.foldl_append, postApiUpload, upload]

theorem lastUpload_snoc (files : List UploadedFile) (file : UploadedFile) (n : String) :
    lastUpload (files ++ [file]) n =
      if file.originalname = n then some file else lastUpload files n := by
  unfold lastUpload
  rw [List.reverse_append, List.reverse_singleton, List.singleton_append, List.find?_cons]
  by_cases h : file.originalname = n <;> simp [h]

theorem lastUpload_some (files : List UploadedFile) (n : String) (file : UploadedFile)
    (h : lastUpload files n = some file) : file ∈ files ∧ file.originalname = n := by
  unfold lastUpload at h
  have h1 := List.find?_some h
  have h2 := List.mem_of_find?_eq_some h
  simp only [decide_eq_true_eq] at h1
  exact ⟨List.mem_reverse.1 h2, h1⟩

theorem lastUpload_of_mem (files : List UploadedFile) (file : UploadedFile) (h : file ∈ files) :
    ∃ last, lastUpload files file.originalname = some last := by
  have hsome : (lastUpload files file.originalname).isSome = true := by
    unfold lastUpload
    rw [List.find?_isSome]
    exact ⟨file, List.mem_reverse.2 h, by simp⟩
  exact Option.isSome_iff_exists.1 hsome

theorem uploadAll_invariant (place : List String → String → Nat) (files : List UploadedFile) :
    (readdir (uploadAll place [] files)).Nodup ∧
    ∀ n t, (n, t) ∈ uploadAll place [] files ↔
      ∃ file, lastUpload files n = some file ∧ file.bytes = t := by
  induction files using List.reverseRecOn with
  | nil => simp [uploadAll, readdir, lastUpload]
  | append_singleton files file ih =>
    rw [uploadAll_snoc]
    refine ⟨nodup_readdir_writeFile _ _ _ _ ih.1, ?_⟩
    intro n t
    rw [mem_writeFile, lastUpload_snoc, ih.2]
    by_cases h : file.originalname = n
    · rw [if_pos h]
      constructor
      · rintro (⟨_, h2⟩ | ⟨h1, _⟩)
        · exact ⟨file, rfl, h2.symm⟩
        · exact absurd h.symm h1
      · rintro ⟨f, hf, hb⟩
        simp only [Option.some.injEq] at hf
        subst hf
        exact Or.inl ⟨h.symm, hb.symm⟩
    · rw [if_neg h]
      constructor
      · rintro (⟨h1, _⟩ | ⟨_, h2⟩)
        · exact absurd h1.symm h
        · exact h2
      · intro h2
        exact Or.inr ⟨fun hn => h hn.symm, h2⟩

/-! ### The list route -/

theorem readReports_none_of_mem {J : Type} (parse : String → Option J) (d : Dir)
    (files : List String) (file : String) (hmem : file ∈ files)
    (hbad : (readFileSync d file).bind parse = none) : readReports parse d files = none := by
  induction files with
  | nil => simp at hmem
  | cons f rest ih =>
    unfold readReports
    rcases List.mem_cons.1 hmem with heq | hrest
    · subst heq
      cases hr : readFileSync d file with
      | none => rfl
      | some text =>
        rw [hr] at hbad
        simp only [Option.some_bind] at hbad
        simp only [hbad]
    · rw [ih hrest]
      cases readFileSync d f with
      | none => rfl
      | some text =>
        cases hp : parse text with
        | none => simp only [hp]
        | some content => simp only [hp]

theorem readReports_some {J : Type} (parse : String → Option J) (d : Dir) (files : List String)
    (h : ∀ file ∈ files, ∃ text content, readFileSync d file = some text ∧
      parse text = some content) :
    ∃ reports, readReports parse d files = some reports ∧
      reports.map Report.fileName = files ∧
      ∀ r ∈ reports, ∃ text, readFileSync d r.fileName = some text ∧
        parse text = some r.content := by
  induction files with
  | nil => exact ⟨[], rfl, rfl, by simp⟩
  | cons f rest ih =>
    obtain ⟨text, content, hr, hp⟩ := h f (List.mem_cons_self _ _)
    obtain ⟨reports, hrs, hnames, hcontent⟩ :=
      ih (fun file hfile => h file (List.mem_cons_of_mem _ hfile))
    refine ⟨{ fileName := f, content := content } :: reports, ?_, ?_, ?_⟩
    · unfold readReports
      simp only [hr, hp, hrs]
    · simp [hnames]
    · intro r hmem
      rcases List.mem_cons.1 hmem with heq | hrest
      · subst heq
        exact ⟨text, hr, hp⟩
      · exact hcontent r hrest

/-- Claim C4: when every file of the directory whose name ends in `.json` parses, the
file names returned by `GET /api/reports` are the enumeration of the directory filtered to
the names with the suffix `.json`, in the same order; an empty directory gives the empty
list with status 200. -/
theorem getApiReports_fileNames {J : Type} (parse : String → Option J) (d : Dir)
    (h : ∀ e ∈ d, (".json" : String).data <:+ e.1.data → (parse e.2).isSome = true) :
    (∃ reports, getApiReports parse (some d) = .response 200 (.reports reports) ∧
      reports.map Report.fileName =
        (readdir d).filter (fun name => decide ((".json" : String).data <:+ name.data))) ∧
    getApiReports parse (some []) = .response 200 (.reports []) := by
  constructor
  · have hfilter : (readdir d).filter (fun file => endsWith file ".json") =
        (readdir d).filter (fun name => decide ((".json" : String).data <:+ name.data)) := by
      apply List.filter_congr
      intro name _
      by_cases hs : (".json" : String).data <:+ name.data
      · simp [hs, (endsWith_iff_suffix name ".json").2 hs]
      · have hf : endsWith name ".json" = false := by
          cases he : endsWith name ".json" with
          | false => rfl
          | true => exact absurd ((endsWith_iff_suffix name ".json").1 he) hs
        simp [hs, hf]
    have hall : ∀ file ∈ (readdir d).filter (fun file => endsWith file ".json"),
        ∃ text content, readFileSync d file = some text ∧ parse text = some content := by
      intro file hfile
      rw [List.mem_filter] at hfile
      obtain ⟨text, htext⟩ := readFileSync_of_mem_readdir d file hfile.1
      have hp := h (file, text) (readFileSync_mem d file text htext)
        ((endsWith_iff_suffix file ".json").1 hfile.2)
      obtain ⟨content, hcontent⟩ := Option.isSome_iff_exists.1 hp
      exact ⟨text, content, htext, hcontent⟩
    obtain ⟨reports, hrs, hnames, -⟩ := readReports_some parse d _ hall
    refine ⟨reports, ?_, ?_⟩
    · simp only [getApiReports, hrs]
    · rw [hnames, hfilter]
  · rfl

/-- A concrete instance: a directory with two reports, a text file and a file named
`a.JSON`. -/
theorem getApiReports_fileNames_witness :
    (∃ reports, getApiReports sampleParse (some sampleDir) = .response 200 (.reports reports) ∧
      reports.map Report.fileName =
        (readdir sampleDir).filter
          (fun name => decide ((".json" : String).data <:+ name.data))) ∧
    getApiReports sampleParse (some []) = .response 200 (.reports []) :=
  getApiReports_fileNames sampleParse sampleDir (by decide)

/-- Claim C5: when a file of the directory whose name ends in `.json` is not JSON, the
request to `GET /api/reports` gives no list of reports: the exception of `JSON.parse`
leaves the `fs.readdir` callback uncaught and no response is written, whereas a directory
that cannot be enumerated is answered 500 with an error body. -/
theorem getApiReports_malformed {J : Type} (parse : String → Option J) (d : Dir)
    (name text : String) (hnd : (readdir d).Nodup) (hmem : (name, text) ∈ d)
    (hjson : endsWith name ".json" = true) (hbad : parse text = none) :
    getApiReports parse (some d) = .uncaught ∧
    getApiReports parse none = .response 500 (.error "Unable to read reports directory") ∧
    getApiReports parse (some d) ≠ getApiReports parse none := by
  have hun : getApiReports parse (some d) = .uncaught := by
    have hfile : name ∈ (readdir d).filter (fun file => endsWith file ".json") := by
      rw [List.mem_filter]
      exact ⟨List.mem_map.2 ⟨(name, text), hmem, rfl⟩, hjson⟩
    have hread := readFileSync_of_mem_nodup d name text hnd hmem
    have hnone := readReports_none_of_mem parse d _ name hfile (by rw [hread]; exact hbad)
    simp only [getApiReports, hnone]
  refine ⟨hun, rfl, ?_⟩
  rw [hun]
  intro hc
  exact ListOutcome.noConfusion hc

/-- A concrete instance: a directory with one report that is JSON and one that is not. -/
theorem getApiReports_malformed_witness :
    getApiReports sampleParse (some brokenDir) = .uncaught ∧
    getApiReports sampleParse none =
      .response 500 (.error "Unable to read reports directory") ∧
    getApiReports sampleParse (some brokenDir) ≠ getApiReports sampleParse none :=
  getApiReports_malformed sampleParse brokenDir "bad.json" "oops" (by decide) (by decide)
    (by decide) (by decide)

/-! ### The upload route: storage -/

/-- Claim C1: an upload request without a file is answered 400 and leaves the storage
directory unchanged; an upload of a file whose extension is not `.json` is answered 400
too, but the middleware has already stored the file: after the rejected upload of `x.txt`
to an empty directory the directory contains `x.txt`, and a rejected file named `.json`
is even read by the next `GET /api/reports`. -/
theorem postApiUpload_rejected_file_is_stored (place : List String → String → Nat) :
    (∀ d : Dir, postApiUpload place d none =
      ({ status := 400, body := .error "No file uploaded" }, d)) ∧
    postApiUpload place [] (some { originalname := "x.txt", bytes := "hello" }) =
      ({ status := 400, body := .error "Only JSON files are allowed" }, [("x.txt", "hello")]) ∧
    (∀ (d : Dir) (file : UploadedFile),
      (file.originalname, file.bytes) ∈ (postApiUpload place d (some file)).2) ∧
    postApiUpload place [] (some { originalname := ".json", bytes := "oops" }) =
      ({ status := 400, body := .error "Only JSON files are allowed" }, [(".json", "oops")]) ∧
    getApiReports sampleParse (some [(".json", "oops")]) = .uncaught := by
  refine ⟨fun d => rfl, ?_, ?_, ?_, by decide⟩
  · have h : extname "x.txt" ≠ ".json" := by decide
    simp [postApiUpload, upload, uploadHandler, h, writeFile]
  · intro d file
    show (file.originalname, file.bytes) ∈ writeFile place d file.originalname file.bytes
    rw [mem_writeFile]
    exact Or.inl ⟨rfl, rfl⟩
  · have h : extname ".json" ≠ ".json" := by decide
    simp [postApiUpload, upload, uploadHandler, h, writeFile]

/-- Claim C2: after any sequence of valid uploads (a file name without `/` whose extension
is `.json`, and bytes that parse) to an initially empty storage directory, every upload
was answered 200 and `GET /api/reports` answers 200 with a list in which every report has
an uploaded name, every uploaded name occurs exactly once, and the content of its report
is the parse of the bytes of the last upload under that name. -/
theorem getApiReports_after_uploads {J : Type} (place : List String → String → Nat)
    (parse : String → Option J) (files : List UploadedFile)
    (hvalid : ∀ file ∈ files, (∀ c ∈ file.originalname.data, c ≠ '/') ∧
      extname file.originalname = ".json" ∧ (parse file.bytes).isSome = true) :
    (∀ file ∈ files, ∀ d : Dir, (postApiUpload place d (some file)).1 =
      { status := 200, body := .success "File uploaded successfully!" file.originalname }) ∧
    ∃ reports,
      getApiReports parse (some (uploadAll place [] files)) = .response 200 (.reports reports) ∧
      (∀ r ∈ reports, ∃ file ∈ files, file.originalname = r.fileName) ∧
      (∀ file ∈ files, ∃ last, lastUpload files file.originalname = some last ∧
        (reports.map Report.fileName).count file.originalname = 1 ∧
        ∀ r ∈ reports, r.fileName = file.originalname → parse last.bytes = some r.content) := by
  constructor
  · intro file hfile d
    show uploadHandler (some file) = _
    simp [uploadHandler, (hvalid file hfile).2.1]
  obtain ⟨hnd, hmem⟩ := uploadAll_invariant place files
  have hentry : ∀ n t, (n, t) ∈ uploadAll place [] files →
      endsWith n ".json" = true ∧ (parse t).isSome = true := by
    intro n t hnt
    obtain ⟨f, hf, hb⟩ := (hmem n t).1 hnt
    obtain ⟨hfm, hfn⟩ := lastUpload_some files n f hf
    obtain ⟨h1, h2, h3⟩ := hvalid f hfm
    rw [← hfn, ← hb]
    exact ⟨extname_json_endsWith _ h1 h2, h3⟩
  have hfilter : (readdir (uploadAll place [] files)).filter (fun file => endsWith file ".json") =
      readdir (uploadAll place [] files) := by
    rw [List.filter_eq_self]
    intro n hn
    obtain ⟨e, he, hen⟩ := List.mem_map.1 hn
    rw [← hen]
    exact (hentry e.1 e.2 he).1
  have hall : ∀ file ∈ readdir (uploadAll place [] files),
      ∃ text content, readFileSync (uploadAll place [] files) file = some text ∧
        parse text = some content := by
    intro file hfile
    obtain ⟨text, htext⟩ := readFileSync_of_mem_readdir _ file hfile
    have hp := (hentry file text (readFileSync_mem _ file text htext)).2
    obtain ⟨content, hcontent⟩ := Option.isSome_iff_exists.1 hp
    exact ⟨text, content, htext, hcontent⟩
  obtain ⟨reports, hrs, hnames, hcontent⟩ := readReports_some parse _ _ hall
  refine ⟨reports, ?_, ?_, ?_⟩
  · simp only [getApiReports, hfilter, hrs]
  · intro r hr
    have hrn : r.fileName ∈ readdir (uploadAll place [] files) := by
      rw [← hnames]
      exact List.mem_map.2 ⟨r, hr, rfl⟩
    obtain ⟨e, he, hen⟩ := List.mem_map.1 hrn
    obtain ⟨f, hf, -⟩ := (hmem e.1 e.2).1 he
    obtain ⟨hfm, hfn⟩ := lastUpload_some files _ f hf
    exact ⟨f, hfm, hfn.trans hen⟩
  · intro file hfile
    obtain ⟨last, hlast⟩ := lastUpload_of_mem files file hfile
    refine ⟨last, hlast, ?_, ?_⟩
    · rw [hnames]
      apply List.count_eq_one_of_mem hnd
      exact List.mem_map.2 ⟨(file.originalname, last.bytes),
        (hmem _ _).2 ⟨last, hlast, rfl⟩, rfl⟩
    · intro r hr hrn
      obtain ⟨text, htext, hparse⟩ := hcontent r hr
      rw [hrn] at htext
      obtain ⟨f, hf, hb⟩ := (hmem _ _).1 (readFileSync_mem _ _ _ htext)
      rw [hlast] at hf
      simp only [Option.some.injEq] at hf
      rw [hf, hb]
      exact hparse

/-- A concrete instance: three uploads, two of them under the name `a.json`, on a file
system that enumerates a new file first. -/
theorem getApiReports_after_uploads_witness :
    (∀ file ∈ sampleUploads, ∀ d : Dir, (postApiUpload placeFirst d (some file)).1 =
      { status := 200, body := .success "File uploaded successfully!" file.originalname }) ∧
    ∃ reports,
      getApiReports sampleParse (some (uploadAll placeFirst [] sampleUploads)) =
        .response 200 (.reports reports) ∧
      (∀ r ∈ reports, ∃ file ∈ sampleUploads, file.originalname = r.fileName) ∧
      (∀ file ∈ sampleUploads, ∃ last, lastUpload sampleUploads file.originalname = some last ∧
        (reports.map Report.fileName).count file.originalname = 1 ∧
        ∀ r ∈ reports, r.fileName = file.originalname →
          sampleParse last.bytes = some r.content) :=
  getApiReports_after_uploads placeFirst sampleParse sampleUploads (by decide)

end JestReports
